import Mathlib

/-
Formal model of the dresokb resumable QA-generation pipeline
(src/dresokb/generators/qa_generator.py, src/dresokb/generators/refinement.py,
src/dresokb/models/qa_progress.py, src/dresokb/cli.py).

Python strings are modelled as lists of characters (PyStr), so that every
operation is structurally recursive and concretely evaluable.  Wall-clock
timestamps (created_at / updated_at) are omitted from the checkpoint state:
no verified property depends on them.  The external generation capability
(AzureOpenAIClient.generate_qa_pairs) is modelled as an oracle function of
the arguments the engine passes it, returning either a candidate list or a
raised exception class.
-/

/-- A Python string, modelled as its list of characters. -/
abbrev PyStr := List Char

/-- The whitespace characters stripped by Python str.strip with no argument
(ASCII subset; further Unicode whitespace is not modelled, no claim depends
on which exact characters count as whitespace). -/
def pyIsSpace (c : Char) : Bool :=
  c == ' ' || c == '\t' || c == '\n' || c == '\r' || c == '\x0b' || c == '\x0c'

/-- Python str.strip(): remove leading and trailing whitespace. -/
def pyStrip (s : PyStr) : PyStr :=
  ((s.dropWhile pyIsSpace).reverse.dropWhile pyIsSpace).reverse

/-- Python str.lower() on one character (ASCII letters; Unicode case mapping
is not modelled, no claim depends on which exact characters change case). -/
def pyLowerChar (c : Char) : Char :=
  if 'A' ≤ c ∧ c ≤ 'Z' then Char.ofNat (c.toNat + 32) else c

/-- The normalisation used by the deduplicator (refinement.py line 73):
question.lower().strip() — lowercase first, then strip. -/
def pyNormalize (s : PyStr) : PyStr := pyStrip (s.map pyLowerChar)

/-- Digit accumulator for parsePyInt. -/
def readDigitsAux : List Char → Nat → Option Nat
  | [], acc => some acc
  | c :: rest, acc =>
    if c.isDigit then readDigitsAux rest (acc * 10 + (c.toNat - 48)) else none

/-- A non-empty run of decimal digits, as a number. -/
def readDigits : List Char → Option Nat
  | [] => none
  | c :: rest => if c.isDigit then readDigitsAux rest (c.toNat - 48) else none

/-- Python int(str): surrounding whitespace allowed, optional sign, then a
non-empty digit run; none models the ValueError raised otherwise.
(Underscore separators and non-ASCII digits are not modelled.) -/
def parsePyInt (s : PyStr) : Option Int :=
  match pyStrip s with
  | '+' :: rest => (readDigits rest).map Int.ofNat
  | '-' :: rest => (readDigits rest).map (fun n => -(n : Int))
  | l => (readDigits l).map Int.ofNat

/-- Python range(a, b) over naturals. -/
def pyRange (a b : Nat) : List Nat := (List.range (b - a)).map (fun i => a + i)

/-- Python s.split(chr(10), 1): the text before the first newline, and the
text after it when a newline exists (qa_generator.py line 85). -/
def splitFirstNL : PyStr → PyStr × Option PyStr
  | [] => ([], none)
  | c :: rest =>
    if c == '\n' then ([], some rest)
    else
      let p := splitFirstNL rest
      (c :: p.1, p.2)

/-- Python enumerate(l, i). -/
def enumFrom : Nat → List PyStr → List (Nat × PyStr)
  | _, [] => []
  | i, p :: rest => (i, p) :: enumFrom (i + 1) rest

instance exceptDecEq {ε α : Type} [DecidableEq ε] [DecidableEq α] : DecidableEq (Except ε α) :=
  fun a b =>
    match a, b with
    | .ok x, .ok y => decidable_of_iff (x = y) ⟨by rintro rfl; rfl, fun h => by injection h⟩
    | .ok _, .error _ => isFalse (fun h => Except.noConfusion h)
    | .error _, .ok _ => isFalse (fun h => Except.noConfusion h)
    | .error x, .error y => decidable_of_iff (x = y) ⟨by rintro rfl; rfl, fun h => by injection h⟩

/-- base_processor.py ProcessedPage (has_image defaults false and is never
read by the generation engine, so it is omitted). -/
structure ProcessedPage where
  page_num : Int
  content : PyStr
  source_file : PyStr
deriving DecidableEq

/-- qa_models.py QAPair. -/
structure QAPair where
  question : PyStr
  answer : PyStr
  context : PyStr
  difficulty : Nat
  source_file : PyStr
  page_num : Int
deriving DecidableEq

/-- One raw item of the generation capability's response: a dictionary that
may or may not carry each of the three expected string fields. -/
structure Candidate where
  question : Option PyStr
  answer : Option PyStr
  context : Option PyStr
deriving DecidableEq

/-- The class of a raised Python exception, as far as the engine's except
clause (qa_generator.py line 153) distinguishes: ValueError and IndexError
are caught there, everything else propagates. -/
inductive PyExnClass where
  | valueError
  | indexError
  | other
deriving DecidableEq

/-- Whether the page-loop except clause catches this exception class. -/
def PyExnClass.caught : PyExnClass → Bool
  | .valueError => true
  | .indexError => true
  | .other => false

/-- qa_progress.py QAGenerationState; created_at / updated_at omitted
(wall-clock timestamps, unused by every verified property). -/
structure QAGenerationState where
  file_stem : PyStr
  markdown_path : PyStr
  max_difficulty : Nat
  current_page_idx : Nat
  current_difficulty : Nat
  total_pages : Nat
  generated_qa_pairs : List QAPair
  existing_questions : List PyStr
deriving DecidableEq

/-- QAGenerator.generate_from_page (qa_generator.py lines 41-52), with the
capability's already-returned response as the qa_data argument: keep exactly
the items carrying all three of question, answer, context, and tag each
resulting pair with the current difficulty and the page's identity. -/
def generate_from_page (page : ProcessedPage) (difficulty : Nat) (qa_data : List Candidate) :
    List QAPair :=
  qa_data.filterMap fun item =>
    match item.question, item.answer, item.context with
    | some q, some a, some c =>
        some ⟨q, a, c, difficulty, page.source_file, page.page_num⟩
    | _, _, _ => none

/-- Modelled from the spec: a candidate is complete when it carries all
three of question, answer and context. -/
def candidateHasAllFields (c : Candidate) : Bool :=
  c.question.isSome && c.answer.isSome && c.context.isSome

/-- Modelled from the spec: the QAPair a complete candidate becomes, tagged
with the page's pageNumber, the current difficulty and the document
identity. -/
def qaPairOfCandidate (page : ProcessedPage) (difficulty : Nat) (c : Candidate) : QAPair :=
  ⟨c.question.getD [], c.answer.getD [], c.context.getD [],
   difficulty, page.source_file, page.page_num⟩

/-- The loop body of IterativeRefinement.deduplicate_qa_pairs
(refinement.py lines 69-78): seen_questions is the set of normalised
questions of the pairs kept so far. -/
def dedupGo (seen : List PyStr) : List QAPair → List QAPair
  | [] => []
  | qa :: rest =>
    if pyNormalize qa.question ∈ seen then dedupGo seen rest
    else qa :: dedupGo (pyNormalize qa.question :: seen) rest

/-- IterativeRefinement.deduplicate_qa_pairs (refinement.py lines 65-78). -/
def deduplicate_qa_pairs (qa_pairs : List QAPair) : List QAPair :=
  dedupGo [] qa_pairs

/-- Modelled from the spec: keep a pair exactly when its normalised question
has not occurred earlier in the sequence; earlier accumulates the normalised
question of every pair already passed, kept or dropped. -/
def dedupSpecAux (earlier : List PyStr) : List QAPair → List QAPair
  | [] => []
  | qa :: rest =>
    if pyNormalize qa.question ∈ earlier then
      dedupSpecAux (earlier ++ [pyNormalize qa.question]) rest
    else
      qa :: dedupSpecAux (earlier ++ [pyNormalize qa.question]) rest

/-- Modelled from the spec: deduplication keeps exactly the pairs whose
normalised question text has not occurred earlier in the sequence, in
order. -/
def dedupSpecFirstOccurrence (qa_pairs : List QAPair) : List QAPair :=
  dedupSpecAux [] qa_pairs

/-- QAProgressManager.validate_state (qa_progress.py lines 101-109).
Path equality is modelled as equality of path strings, and the filesystem
as the fileExists predicate. -/
def validate_state (state : QAGenerationState) (markdown_path : PyStr) (max_difficulty : Nat)
    (fileExists : PyStr → Bool) : Bool :=
  (state.markdown_path == markdown_path) && (state.max_difficulty == max_difficulty)
    && fileExists markdown_path

/-- QAProgressManager.load_state (qa_progress.py lines 81-93).  contents is
the progress file's text when the file exists; parse models json.load
followed by QAGenerationState.from_dict, with any raised exception as an
error value.  The except clause maps every exception to None. -/
def load_state (parse : PyStr → Except PyExnClass QAGenerationState)
    (contents : Option PyStr) : Option QAGenerationState :=
  match contents with
  | none => none
  | some raw =>
    match parse raw with
    | .ok st => some st
    | .error _ => none

/-- The external generation capability
(AzureOpenAIClient.generate_qa_pairs), modelled as an oracle over exactly
the arguments the engine passes it (qa_generator.py lines 35-39): the page
content, the difficulty, and the current existing-question list.  It either
returns the response items or raises an exception of some class. -/
abbrev GenCapability := PyStr → Nat → List PyStr → Except PyExnClass (List Candidate)

/-- Next cursor position after completing (pageIdx, d)
(qa_generator.py lines 130-135). -/
def nextCursor (pageIdx d maxD : Nat) : Nat × Nat :=
  if d < maxD then (pageIdx, d + 1) else (pageIdx + 1, 1)

/-- The QAGenerationState snapshot saved after completing unit (pageIdx, d)
(qa_generator.py lines 137-151). -/
def mkSavedState (stem mdPath : PyStr) (maxD totalP pageIdx d : Nat)
    (pairs : List QAPair) (qs : List PyStr) : QAGenerationState :=
  ⟨stem, mdPath, maxD, (nextCursor pageIdx d maxD).1, (nextCursor pageIdx d maxD).2,
   totalP, pairs, qs⟩

/-- Result of the per-page difficulty loop: the exception it stopped on (if
any), the full accumulated pair and question lists, and the checkpoint saves
and capability calls this page contributed. -/
structure UnitLoopResult where
  outcome : Option PyExnClass
  pairs : List QAPair
  questions : List PyStr
  savedNew : List ((Nat × Nat) × QAGenerationState)
  callsNew : List ((Nat × Nat) × Except PyExnClass (List Candidate))

/-- The difficulty loop for one page (qa_generator.py lines 108-151): for
each difficulty in order, invoke the capability with the page text and the
current question list, filter the candidates, extend the accumulators, and
(when a progress manager is present) save a checkpoint pointing at the next
cursor position.  An exception from the capability stops the loop and is
reported in outcome; everything accumulated before it is kept. -/
def runDifficulties (gen : GenCapability) (hasPM : Bool) (stem mdPath : PyStr)
    (maxD totalP pageIdx : Nat) (page : ProcessedPage) :
    List Nat → List QAPair → List PyStr → UnitLoopResult
  | [], pairs, qs => ⟨none, pairs, qs, [], []⟩
  | d :: rest, pairs, qs =>
    match gen page.content d qs with
    | .error e => ⟨some e, pairs, qs, [], [((pageIdx, d), .error e)]⟩
    | .ok qa_data =>
      let newPairs := generate_from_page page d qa_data
      let pairs1 := pairs ++ newPairs
      let qs1 := qs ++ newPairs.map (fun qa => qa.question)
      let savedHere :=
        if hasPM then
          [((pageIdx, d), mkSavedState stem mdPath maxD totalP pageIdx d pairs1 qs1)]
        else []
      let r := runDifficulties gen hasPM stem mdPath maxD totalP pageIdx page rest pairs1 qs1
      ⟨r.outcome, r.pairs, r.questions, savedHere ++ r.savedNew,
       ((pageIdx, d), .ok qa_data) :: r.callsNew⟩

/-- Observable trace of one engine run: the final accumulated pairs and
question list, the uncaught exception that aborted the run (if any), every
checkpoint saved (labelled with the unit just completed), and every
capability call made (labelled with its unit and its outcome). -/
structure EngineTrace where
  pairs : List QAPair
  questions : List PyStr
  uncaught : Option PyExnClass
  saved : List ((Nat × Nat) × QAGenerationState)
  calls : List ((Nat × Nat) × Except PyExnClass (List Candidate))

/-- The page loop (qa_generator.py lines 84-154) over the enumerated page
segments: a segment whose stripped text has no newline is skipped (lines
85-87); a segment with index below the resume page is skipped (lines
90-91); a segment whose first line is not an integer raises ValueError
inside the try and is skipped (lines 94, 153-154); otherwise the difficulty
loop runs from the resume difficulty on the resume page and from 1
elsewhere (line 105).  A ValueError or IndexError from the difficulty loop
is caught by the same except clause and skips to the next page; any other
exception aborts the run. -/
def runPages (gen : GenCapability) (hasPM : Bool) (stem mdPath : PyStr)
    (maxD totalP startP startD : Nat) :
    List (Nat × PyStr) → List QAPair → List PyStr → EngineTrace
  | [], pairs, qs => ⟨pairs, qs, none, [], []⟩
  | (pageIdx, pc) :: rest, pairs, qs =>
    match splitFirstNL (pyStrip pc) with
    | (_, none) => runPages gen hasPM stem mdPath maxD totalP startP startD rest pairs qs
    | (l0, some l1) =>
      if pageIdx < startP then
        runPages gen hasPM stem mdPath maxD totalP startP startD rest pairs qs
      else
        match parsePyInt l0 with
        | none => runPages gen hasPM stem mdPath maxD totalP startP startD rest pairs qs
        | some pn =>
          let page : ProcessedPage := ⟨pn, l1, mdPath⟩
          let startHere := if pageIdx = startP then startD else 1
          let r := runDifficulties gen hasPM stem mdPath maxD totalP pageIdx page
            (pyRange startHere (maxD + 1)) pairs qs
          match r.outcome with
          | none =>
            let t := runPages gen hasPM stem mdPath maxD totalP startP startD rest
              r.pairs r.questions
            ⟨t.pairs, t.questions, t.uncaught, r.savedNew ++ t.saved, r.callsNew ++ t.calls⟩
          | some e =>
            if e.caught then
              let t := runPages gen hasPM stem mdPath maxD totalP startP startD rest
                r.pairs r.questions
              ⟨t.pairs, t.questions, t.uncaught, r.savedNew ++ t.saved, r.callsNew ++ t.calls⟩
            else ⟨r.pairs, r.questions, some e, r.savedNew, r.callsNew⟩

/-- Initial accumulated pairs (qa_generator.py lines 69-80). -/
def initialPairs : Option QAGenerationState → List QAPair
  | some rs => rs.generated_qa_pairs
  | none => []

/-- Initial existing-question list (qa_generator.py lines 69-80). -/
def initialQuestions : Option QAGenerationState → List PyStr
  | some rs => rs.existing_questions
  | none => []

/-- Initial page cursor (qa_generator.py lines 69-80). -/
def startPageIdx : Option QAGenerationState → Nat
  | some rs => rs.current_page_idx
  | none => 1

/-- Initial difficulty cursor (qa_generator.py lines 69-80). -/
def startDifficulty : Option QAGenerationState → Nat
  | some rs => rs.current_difficulty
  | none => 1

/-- QAGenerator.generate_from_markdown (qa_generator.py lines 54-156).
pages is the list content.split of the page marker produces (line 66),
including the pre-marker segment that the loop skips; mdPath and stem stand
for str(markdown_path) and markdown_path.stem.  The progress callback is
omitted: it only renders a progress bar. -/
def generate_from_markdown (gen : GenCapability) (pages : List PyStr) (mdPath stem : PyStr)
    (maxD : Nat) (hasPM : Bool) (resume : Option QAGenerationState) : EngineTrace :=
  runPages gen hasPM stem mdPath maxD (pages.length - 1)
    (startPageIdx resume) (startDifficulty resume)
    (enumFrom 1 (pages.drop 1)) (initialPairs resume) (initialQuestions resume)

/-- The (page index, difficulty) units the engine invoked the capability
for, in call order. -/
def invokedUnits (t : EngineTrace) : List (Nat × Nat) :=
  t.calls.map (fun c => c.1)

/-- The unit of a successful capability call, used to relate checkpoint
saves to completed units. -/
def okUnit (c : (Nat × Nat) × Except PyExnClass (List Candidate)) : Option (Nat × Nat) :=
  match c.2 with
  | .ok _ => some c.1
  | .error _ => none

/-- Inputs of one document's run through cli.process_single_file that the
checkpoint lifecycle depends on: the split page segments, the markdown path
and stem, the loaded checkpoint (existing, already the parsed view), whether
the markdown file exists, whether writing the final output succeeds, and the
user's answer to the resume prompt. -/
structure FileJob where
  pages : List PyStr
  mdPath : PyStr
  stem : PyStr
  existing : Option QAGenerationState
  mdExists : Bool
  persistOk : Bool
  userResume : Bool

/-- Outcome of cli.process_single_file for one document: the returned pair
count and the checkpoint left on disk afterwards. -/
structure SingleFileResult where
  count : Nat
  finalCkpt : Option QAGenerationState
deriving DecidableEq

/-- The checkpoint-resolution phase of cli.process_single_file (lines
106-140): decide the resume state and the checkpoint left on disk before
generation starts.  Returns (resume state, checkpoint after this phase). -/
def resolveResume (existing : Option QAGenerationState) (valid : QAGenerationState → Bool)
    (force_restart userResume : Bool) :
    Option QAGenerationState × Option QAGenerationState :=
  match existing with
  | none => (none, none)
  | some st =>
    if valid st then
      if force_restart then (none, none)
      else if userResume then (some st, some st)
      else (none, none)
    else (none, none)

/-- The checkpoint on disk after an engine run: the engine overwrites the
same file on every save, so the last save wins; when the engine saved
nothing the pre-run checkpoint remains. -/
def lastSavedOr (t : EngineTrace) (fallback : Option QAGenerationState) :
    Option QAGenerationState :=
  match t.saved.getLast? with
  | some pr => some pr.2
  | none => fallback

/-- The checkpoint-resolution outcome for a job: resume state and the
checkpoint on disk once the prompt phase is over. -/
def jobResolve (maxD : Nat) (force_restart : Bool) (job : FileJob) :
    Option QAGenerationState × Option QAGenerationState :=
  resolveResume job.existing
    (fun st => validate_state st job.mdPath maxD (fun _ => job.mdExists))
    force_restart job.userResume

/-- The engine trace a job's generation phase produces (cli.py line 148:
generate_from_markdown is always called with the progress manager). -/
def engineTraceOf (gen : GenCapability) (maxD : Nat) (force_restart : Bool)
    (job : FileJob) : EngineTrace :=
  generate_from_markdown gen job.pages job.mdPath job.stem maxD true
    (jobResolve maxD force_restart job).1

/-- The checkpoint on disk once the generation phase has run (before any
success-path deletion). -/
def ckptAfterRun (gen : GenCapability) (maxD : Nat) (force_restart : Bool)
    (job : FileJob) : Option QAGenerationState :=
  lastSavedOr (engineTraceOf gen maxD force_restart job) (jobResolve maxD force_restart job).2

/-- cli.process_single_file (lines 100-179), from the point where the
markdown exists: resolve the checkpoint, run the engine with a progress
manager, and on success deduplicate, persist the output and delete the
checkpoint; an uncaught exception from generation (lines 151-156) or a
failure writing the output (caught by the outer handler, lines 174-179)
returns a zero count and performs no checkpoint deletion. -/
def process_single_file (gen : GenCapability) (maxD : Nat) (force_restart : Bool)
    (job : FileJob) : SingleFileResult :=
  let t := engineTraceOf gen maxD force_restart job
  match t.uncaught with
  | some _ => ⟨0, ckptAfterRun gen maxD force_restart job⟩
  | none =>
    if job.persistOk then ⟨(deduplicate_qa_pairs t.pairs).length, none⟩
    else ⟨0, ckptAfterRun gen maxD force_restart job⟩

/-- cli.process_files (lines 238-242): documents processed one by one, each
through process_single_file, the returned counts summed. -/
def process_files (gen : GenCapability) (maxD : Nat) (force_restart : Bool)
    (jobs : List FileJob) : Nat :=
  (jobs.map (fun j => (process_single_file gen maxD force_restart j).count)).sum

/-- A well-formed page segment: page number 1 with body B. -/
def pageSeg1 : PyStr := ['1', '\n', 'B']

/-- A well-formed page segment: page number 2 with body C. -/
def pageSeg2 : PyStr := ['2', '\n', 'C']

/-- A two-page split list (first element is the discarded pre-marker
segment). -/
def demoPages : List PyStr := [[], pageSeg1, pageSeg2]

/-- An oracle returning one complete candidate on every call. -/
def genOneCandidate : GenCapability :=
  fun _ _ _ => .ok [⟨some ['Q'], some ['A'], some ['C']⟩]

/-- An oracle raising ValueError on every call. -/
def genValueError : GenCapability := fun _ _ _ => .error .valueError

/-- An oracle raising an exception outside ValueError/IndexError on every
call. -/
def genOtherError : GenCapability := fun _ _ _ => .error .other

/-- A previously accumulated pair carried by the resume state. -/
def pairA : QAPair := ⟨['a'], ['b'], ['c'], 1, [], 1⟩

/-- A resume state pointing at page 1, difficulty 1, with a non-empty
accumulator. -/
def resumeFreshC1 : QAGenerationState := ⟨[], [], 2, 1, 1, 2, [pairA], [['a']]⟩

/-- A resumed run over the two-page document. -/
def traceC1b : EngineTrace :=
  generate_from_markdown genOneCandidate demoPages [] [] 2 true (some resumeFreshC1)

/-- A fresh run over a one-page document with two difficulty levels. -/
def traceC2 : EngineTrace :=
  generate_from_markdown genOneCandidate [[], pageSeg1] [] [] 2 true none

/-- A fresh run over the two-page document whose capability always raises
ValueError. -/
def traceC3 : EngineTrace :=
  generate_from_markdown genValueError demoPages [] [] 2 true none

/-- A fresh run over a one-page document whose capability raises an
exception outside ValueError/IndexError. -/
def traceC3b : EngineTrace :=
  generate_from_markdown genOtherError [[], pageSeg1] [] [] 1 true none

/-- A fresh run over a one-page document with one complete candidate whose
question is an uppercase Q. -/
def traceC4 : EngineTrace :=
  generate_from_markdown genOneCandidate [[], pageSeg1] [] [] 1 true none

/-- A sample page for the candidate-filtering witness. -/
def pageC9 : ProcessedPage := ⟨1, ['x'], ['f']⟩

/-- The claim's sample capability output: one complete record, one with
only a question, one empty. -/
def candidatesC9 : List Candidate :=
  [⟨some ['Q'], some ['A'], some ['C']⟩, ⟨some ['Q', '2'], none, none⟩, ⟨none, none, none⟩]

/-- A checkpoint whose run completed (cursor past the last page) used as a
valid existing checkpoint for the orchestrator witness. -/
def existingC8 : QAGenerationState := ⟨[], [], 1, 1, 1, 1, [], []⟩

/-- A job that resumes from a valid checkpoint and succeeds end to end. -/
def jobC8 : FileJob := ⟨[[], pageSeg1], [], [], some existingC8, true, true, true⟩

/-- A checkpoint state with max difficulty 3 for the validity-gating
instance. -/
def stateMaxThree : QAGenerationState := ⟨[], ['p'], 3, 1, 1, 1, [], []⟩

/-- The checkpoint saved after unit (1, 2) of the fresh two-difficulty
run: its cursor has rolled over to page 2, difficulty 1. -/
def savedPairC2 : (Nat × Nat) × QAGenerationState :=
  ((1, 2), ⟨[], [], 2, 2, 1, 1,
    [⟨['Q'], ['A'], ['C'], 1, [], 1⟩, ⟨['Q'], ['A'], ['C'], 2, [], 1⟩],
    [['Q'], ['Q']]⟩)

theorem dedupGo_eq_specAux (l : List QAPair) : ∀ (seen earlier : List PyStr),
    (∀ k, k ∈ seen ↔ k ∈ earlier) → dedupGo seen l = dedupSpecAux earlier l := by
  induction l with
  | nil => intro seen earlier _; rfl
  | cons qa rest ih =>
    intro seen earlier h
    simp only [dedupGo, dedupSpecAux]
    by_cases hk : pyNormalize qa.question ∈ seen
    · rw [if_pos hk, if_pos ((h _).mp hk)]
      refine ih _ _ (fun k => ?_)
      rw [h k]
      constructor
      · intro hm
        exact List.mem_append_left _ hm
      · intro hm
        rcases List.mem_append.mp hm with hm | hm
        · exact hm
        · rw [List.mem_singleton.mp hm]
          exact (h _).mp hk
    · rw [if_neg hk, if_neg (fun hc => hk ((h _).mpr hc))]
      congr 1
      refine ih _ _ (fun k => ?_)
      rw [List.mem_cons, h k, List.mem_append, List.mem_singleton]
      tauto

theorem dedupGo_sublist (l : List QAPair) : ∀ seen, List.Sublist (dedupGo seen l) l := by
  induction l with
  | nil => intro seen; simp [dedupGo]
  | cons qa rest ih =>
    intro seen
    simp only [dedupGo]
    by_cases hk : pyNormalize qa.question ∈ seen
    · rw [if_pos hk]
      exact (ih seen).cons qa
    · rw [if_neg hk]
      exact (ih _).cons₂ qa

theorem dedupGo_not_mem_seen (l : List QAPair) :
    ∀ seen qa, qa ∈ dedupGo seen l → pyNormalize qa.question ∉ seen := by
  induction l with
  | nil => intro seen qa hqa; simp [dedupGo] at hqa
  | cons x rest ih =>
    intro seen qa hqa
    simp only [dedupGo] at hqa
    by_cases hk : pyNormalize x.question ∈ seen
    · rw [if_pos hk] at hqa
      exact ih seen qa hqa
    · rw [if_neg hk] at hqa
      rcases List.mem_cons.mp hqa with rfl | hqa
      · exact hk
      · intro hc
        exact ih _ qa hqa (List.mem_cons_of_mem _ hc)

theorem dedupGo_keys_nodup (l : List QAPair) :
    ∀ seen, ((dedupGo seen l).map (fun qa => pyNormalize qa.question)).Nodup := by
  induction l with
  | nil => intro seen; simp [dedupGo]
  | cons x rest ih =>
    intro seen
    simp only [dedupGo]
    by_cases hk : pyNormalize x.question ∈ seen
    · rw [if_pos hk]
      exact ih seen
    · rw [if_neg hk]
      rw [List.map_cons, List.nodup_cons]
      refine ⟨?_, ih _⟩
      intro hc
      rcases List.mem_map.mp hc with ⟨qa, hqa, hkey⟩
      exact dedupGo_not_mem_seen rest _ qa hqa (hkey ▸ List.mem_cons_self _ _)

theorem dedupGo_fixed (l : List QAPair) :
    ∀ seen, (∀ qa ∈ l, pyNormalize qa.question ∉ seen) →
      ((l.map (fun qa => pyNormalize qa.question)).Nodup) → dedupGo seen l = l := by
  induction l with
  | nil => intro seen _ _; rfl
  | cons x rest ih =>
    intro seen hfresh hnd
    simp only [dedupGo]
    rw [if_neg (hfresh x (List.mem_cons_self _ _))]
    congr 1
    rw [List.map_cons, List.nodup_cons] at hnd
    refine ih _ (fun qa hqa => ?_) hnd.2
    rw [List.mem_cons]
    rintro (hc | hc)
    · exact hnd.1 (hc ▸ List.mem_map_of_mem _ hqa)
    · exact hfresh qa (List.mem_cons_of_mem _ hqa) hc

/-- Claim C5: deduplicate_qa_pairs returns exactly the pairs whose
normalised (lowercased, stripped) question has not occurred earlier in the
sequence, in first-occurrence order — the first pair with a given
normalised question is kept, every later pair with the same normalised
question is dropped, and comparison is exact match on that key. -/
theorem deduplicate_matches_first_occurrence (l : List QAPair) :
    deduplicate_qa_pairs l = dedupSpecFirstOccurrence l := by
  exact dedupGo_eq_specAux l [] [] (fun k => Iff.rfl)

/-- Claim C10: deduplication is idempotent — its output has no two pairs
sharing a normalised question key, is a subsequence of the input, and is
returned unchanged by a second application. -/
theorem deduplicate_idempotent (l : List QAPair) :
    deduplicate_qa_pairs (deduplicate_qa_pairs l) = deduplicate_qa_pairs l ∧
    ((deduplicate_qa_pairs l).map (fun qa => pyNormalize qa.question)).Nodup ∧
    List.Sublist (deduplicate_qa_pairs l) l := by
  refine ⟨?_, dedupGo_keys_nodup l [], dedupGo_sublist l []⟩
  exact dedupGo_fixed _ [] (fun qa _ hc => (List.not_mem_nil _ hc)) (dedupGo_keys_nodup l [])

/-- Claim C6: validate_state is true exactly when the stored content path
equals the current one, the stored max difficulty equals the requested one,
and the content file exists; in particular a checkpoint recorded with max
difficulty 3 is rejected when the run requests 2 even though the path
matches and the file exists. -/
theorem validate_state_characterisation :
    (∀ (state : QAGenerationState) (mdp : PyStr) (maxd : Nat) (fe : PyStr → Bool),
       validate_state state mdp maxd fe = true ↔
         (state.markdown_path = mdp ∧ state.max_difficulty = maxd ∧ fe mdp = true)) ∧
    validate_state stateMaxThree ['p'] 2 (fun _ => true) = false := by
  constructor
  · intro state mdp maxd fe
    simp [validate_state, Bool.and_eq_true, beq_iff_eq, and_assoc]
  · decide

/-- Claim C7: load_state returns absent exactly when no checkpoint file
exists or parsing the stored data raised an exception of any class; a
corrupted checkpoint is never propagated as an error. -/
theorem load_state_absent_characterisation :
    ∀ (parse : PyStr → Except PyExnClass QAGenerationState) (contents : Option PyStr),
      load_state parse contents = none ↔
        (contents = none ∨ ∃ raw e, contents = some raw ∧ parse raw = .error e) := by
  intro parse contents
  cases contents with
  | none => simp [load_state]
  | some raw =>
    simp only [load_state]
    cases hp : parse raw with
    | ok st =>
      simp only [reduceCtorEq, false_or, false_iff]
      rintro ⟨raw', e, heq, hpe⟩
      rw [← Option.some_inj.mp heq] at hpe
      rw [hp] at hpe
      exact Except.noConfusion hpe
    | error e =>
      simp only [reduceCtorEq, false_or, true_iff]
      exact ⟨raw, e, rfl, hp⟩

/-- Claim C9: from a capability response, generate_from_page produces
exactly one QAPair per record carrying all three of question, answer and
context (discarding the rest), and every produced pair is tagged with the
current difficulty, the page's source file and the page's page number. -/
theorem generate_from_page_filters_and_tags
    (page : ProcessedPage) (d : Nat) (l : List Candidate) :
    generate_from_page page d l = (l.filter candidateHasAllFields).map (qaPairOfCandidate page d) ∧
    ∀ qa ∈ generate_from_page page d l,
      qa.difficulty = d ∧ qa.source_file = page.source_file ∧ qa.page_num = page.page_num := by
  have hmain : generate_from_page page d l
      = (l.filter candidateHasAllFields).map (qaPairOfCandidate page d) := by
    induction l with
    | nil => rfl
    | cons c rest ih =>
      obtain ⟨oq, oa, oc⟩ := c
      cases oq <;> cases oa <;> cases oc <;>
        simp [generate_from_page, candidateHasAllFields, qaPairOfCandidate,
          List.filterMap_cons, List.filter_cons] <;>
        simpa [generate_from_page] using ih
  refine ⟨hmain, fun qa hqa => ?_⟩
  rw [hmain] at hqa
  rcases List.mem_map.mp hqa with ⟨c, _, rfl⟩
  exact ⟨rfl, rfl, rfl⟩

/-- Witness for generate_from_page_filters_and_tags at the claim's sample
input: exactly one pair is produced and it carries the page tags. -/
theorem generate_from_page_filters_and_tags_witness :
    ((⟨['Q'], ['A'], ['C'], 1, ['f'], 1⟩ : QAPair) ∈ generate_from_page pageC9 1 candidatesC9) ∧
    ((⟨['Q'], ['A'], ['C'], 1, ['f'], 1⟩ : QAPair).difficulty = 1 ∧
     (⟨['Q'], ['A'], ['C'], 1, ['f'], 1⟩ : QAPair).source_file = pageC9.source_file ∧
     (⟨['Q'], ['A'], ['C'], 1, ['f'], 1⟩ : QAPair).page_num = pageC9.page_num) := by
  exact ⟨by decide,
    (generate_from_page_filters_and_tags pageC9 1 candidatesC9).2 _ (by decide)⟩

theorem mem_pyRange (d a b : Nat) : d ∈ pyRange a b ↔ a ≤ d ∧ d < b := by
  simp only [pyRange, List.mem_map, List.mem_range]
  constructor
  · rintro ⟨i, hi, rfl⟩
    omega
  · rintro ⟨h1, h2⟩
    exact ⟨d - a, by omega, by omega⟩

theorem runDifficulties_extend (gen : GenCapability) (hasPM : Bool) (stem mdPath : PyStr)
    (maxD totalP pageIdx : Nat) (page : ProcessedPage) :
    ∀ (diffs : List Nat) (pairs : List QAPair) (qs : List PyStr),
      ∃ t, (runDifficulties gen hasPM stem mdPath maxD totalP pageIdx page diffs pairs qs).pairs
            = pairs ++ t ∧
        (runDifficulties gen hasPM stem mdPath maxD totalP pageIdx page diffs pairs qs).questions
            = qs ++ t.map (fun qa => qa.question) := by
  intro diffs
  induction diffs with
  | nil => intro pairs qs; exact ⟨[], by simp [runDifficulties], by simp [runDifficulties]⟩
  | cons d rest ih =>
    intro pairs qs
    cases hg : gen page.content d qs with
    | error e => exact ⟨[], by simp [runDifficulties, hg], by simp [runDifficulties, hg]⟩
    | ok qa_data =>
      obtain ⟨t, h1, h2⟩ := ih (pairs ++ generate_from_page page d qa_data)
        (qs ++ (generate_from_page page d qa_data).map (fun qa => qa.question))
      refine ⟨generate_from_page page d qa_data ++ t, ?_, ?_⟩
      · simp only [runDifficulties, hg, h1, List.append_assoc]
      · simp only [runDifficulties, hg, h2, List.map_append, List.append_assoc]

theorem runDifficulties_calls (gen : GenCapability) (hasPM : Bool) (stem mdPath : PyStr)
    (maxD totalP pageIdx : Nat) (page : ProcessedPage) :
    ∀ (diffs : List Nat) (pairs : List QAPair) (qs : List PyStr) (u : Nat × Nat),
      u ∈ (runDifficulties gen hasPM stem mdPath maxD totalP pageIdx page diffs pairs qs).callsNew.map
            (fun c => c.1) →
      u.1 = pageIdx ∧ u.2 ∈ diffs := by
  intro diffs
  induction diffs with
  | nil => intro pairs qs u hu; simp [runDifficulties] at hu
  | cons d rest ih =>
    intro pairs qs u hu
    cases hg : gen page.content d qs with
    | error e =>
      simp only [runDifficulties, hg, List.map_cons, List.map_nil, List.mem_singleton] at hu
      subst hu
      exact ⟨rfl, List.mem_cons_self _ _⟩
    | ok qa_data =>
      simp only [runDifficulties, hg, List.map_cons, List.mem_cons] at hu
      rcases hu with rfl | hu
      · exact ⟨rfl, List.mem_cons_self _ _⟩
      · obtain ⟨h1, h2⟩ := ih _ _ u hu
        exact ⟨h1, List.mem_cons_of_mem _ h2⟩

theorem callsNew_unit_bounds (gen : GenCapability) (hasPM : Bool) (stem mdPath : PyStr)
    (maxD totalP pageIdx : Nat) (page : ProcessedPage) (s : Nat)
    (pairs : List QAPair) (qs : List PyStr) (u : Nat × Nat)
    (hu : u ∈ (runDifficulties gen hasPM stem mdPath maxD totalP pageIdx page
            (pyRange s (maxD + 1)) pairs qs).callsNew.map (fun c => c.1)) :
    u.1 = pageIdx ∧ s ≤ u.2 ∧ u.2 ≤ maxD := by
  obtain ⟨h1, h2⟩ := runDifficulties_calls gen hasPM stem mdPath maxD totalP pageIdx page
    (pyRange s (maxD + 1)) pairs qs u hu
  rw [mem_pyRange] at h2
  exact ⟨h1, h2.1, by omega⟩

theorem runDifficulties_saved (gen : GenCapability) (stem mdPath : PyStr)
    (maxD totalP pageIdx : Nat) (page : ProcessedPage) :
    ∀ (diffs : List Nat) (pairs : List QAPair) (qs : List PyStr),
      ((runDifficulties gen true stem mdPath maxD totalP pageIdx page diffs pairs qs).savedNew.map
          (fun pr => pr.1)
        = (runDifficulties gen true stem mdPath maxD totalP pageIdx page diffs pairs qs).callsNew.filterMap
            okUnit) ∧
      ∀ pr ∈ (runDifficulties gen true stem mdPath maxD totalP pageIdx page diffs pairs qs).savedNew,
        pr.2.current_page_idx = (nextCursor pr.1.1 pr.1.2 maxD).1 ∧
        pr.2.current_difficulty = (nextCursor pr.1.1 pr.1.2 maxD).2 := by
  intro diffs
  induction diffs with
  | nil =>
    intro pairs qs
    exact ⟨by simp [runDifficulties], by simp [runDifficulties]⟩
  | cons d rest ih =>
    intro pairs qs
    cases hg : gen page.content d qs with
    | error e =>
      refine ⟨?_, ?_⟩
      · simp [runDifficulties, hg, okUnit]
      · simp [runDifficulties, hg]
    | ok qa_data =>
      obtain ⟨ih1, ih2⟩ := ih (pairs ++ generate_from_page page d qa_data)
        (qs ++ (generate_from_page page d qa_data).map (fun qa => qa.question))
      refine ⟨?_, ?_⟩
      · simp [runDifficulties, hg, okUnit, ih1]
      · intro pr hpr
        simp only [runDifficulties, hg] at hpr
        rw [if_pos trivial, List.singleton_append, List.mem_cons] at hpr
        rcases hpr with rfl | hpr
        · exact ⟨rfl, rfl⟩
        · exact ih2 pr hpr

theorem runDifficulties_outcome (gen : GenCapability) (hasPM : Bool) (stem mdPath : PyStr)
    (maxD totalP pageIdx : Nat) (page : ProcessedPage) :
    ∀ (diffs : List Nat) (pairs : List QAPair) (qs : List PyStr),
      (((runDifficulties gen hasPM stem mdPath maxD totalP pageIdx page diffs pairs qs).outcome = none →
         ∀ c ∈ (runDifficulties gen hasPM stem mdPath maxD totalP pageIdx page diffs pairs qs).callsNew,
           ∃ l, c.2 = .ok l)) ∧
      (∀ e, (runDifficulties gen hasPM stem mdPath maxD totalP pageIdx page diffs pairs qs).outcome = some e →
         ∃ pre u,
           (runDifficulties gen hasPM stem mdPath maxD totalP pageIdx page diffs pairs qs).callsNew
             = pre ++ [(u, .error e)] ∧ ∀ c ∈ pre, ∃ l, c.2 = .ok l) := by
  intro diffs
  induction diffs with
  | nil =>
    intro pairs qs
    refine ⟨fun _ c hc => ?_, fun e he => ?_⟩
    · simp [runDifficulties] at hc
    · simp [runDifficulties] at he
  | cons d rest ih =>
    intro pairs qs
    cases hg : gen page.content d qs with
    | error e0 =>
      refine ⟨fun h => ?_, fun e he => ?_⟩
      · simp [runDifficulties, hg] at h
      · simp only [runDifficulties, hg, Option.some_inj] at he
        subst he
        exact ⟨[], (pageIdx, d), by simp [runDifficulties, hg], by simp⟩
    | ok qa_data =>
      obtain ⟨ih1, ih2⟩ := ih (pairs ++ generate_from_page page d qa_data)
        (qs ++ (generate_from_page page d qa_data).map (fun qa => qa.question))
      refine ⟨fun h c hc => ?_, fun e he => ?_⟩
      · simp only [runDifficulties, hg] at h hc
        rcases List.mem_cons.mp hc with rfl | hc
        · exact ⟨qa_data, rfl⟩
        · exact ih1 h c hc
      · simp only [runDifficulties, hg] at he ⊢
        obtain ⟨pre, u, hcalls, hok⟩ := ih2 e he
        refine ⟨((pageIdx, d), .ok qa_data) :: pre, u, by simp [hcalls], ?_⟩
        intro c hc
        rcases List.mem_cons.mp hc with rfl | hc
        · exact ⟨qa_data, rfl⟩
        · exact hok c hc

theorem runPages_extend (gen : GenCapability) (hasPM : Bool) (stem mdPath : PyStr)
    (maxD totalP startP startD : Nat) :
    ∀ (epages : List (Nat × PyStr)) (pairs : List QAPair) (qs : List PyStr),
      ∃ t, (runPages gen hasPM stem mdPath maxD totalP startP startD epages pairs qs).pairs
            = pairs ++ t ∧
        (runPages gen hasPM stem mdPath maxD totalP startP startD epages pairs qs).questions
            = qs ++ t.map (fun qa => qa.question) := by
  intro epages
  induction epages with
  | nil => intro pairs qs; exact ⟨[], by simp [runPages], by simp [runPages]⟩
  | cons hd rest ih =>
    obtain ⟨pageIdx, pc⟩ := hd
    intro pairs qs
    rcases hsp : splitFirstNL (pyStrip pc) with ⟨l0, ol1⟩
    cases ol1 with
    | none =>
      simp only [runPages, hsp]
      exact ih pairs qs
    | some l1 =>
      by_cases hlt : pageIdx < startP
      · simp only [runPages, hsp, if_pos hlt]
        exact ih pairs qs
      · cases hpn : parsePyInt l0 with
        | none =>
          simp only [runPages, hsp, if_neg hlt, hpn]
          exact ih pairs qs
        | some pn =>
          simp only [runPages, hsp, if_neg hlt, hpn]
          obtain ⟨t1, hp1, hq1⟩ := runDifficulties_extend gen hasPM stem mdPath maxD totalP
            pageIdx ⟨pn, l1, mdPath⟩
            (pyRange (if pageIdx = startP then startD else 1) (maxD + 1)) pairs qs
          cases ho : (runDifficulties gen hasPM stem mdPath maxD totalP pageIdx ⟨pn, l1, mdPath⟩
              (pyRange (if pageIdx = startP then startD else 1) (maxD + 1)) pairs qs).outcome with
          | none =>
            simp only [ho]
            obtain ⟨t2, hp2, hq2⟩ := ih
              (runDifficulties gen hasPM stem mdPath maxD totalP pageIdx ⟨pn, l1, mdPath⟩
                (pyRange (if pageIdx = startP then startD else 1) (maxD + 1)) pairs qs).pairs
              (runDifficulties gen hasPM stem mdPath maxD totalP pageIdx ⟨pn, l1, mdPath⟩
                (pyRange (if pageIdx = startP then startD else 1) (maxD + 1)) pairs qs).questions
            refine ⟨t1 ++ t2, ?_, ?_⟩
            · rw [hp2, hp1, List.append_assoc]
            · rw [hq2, hq1, List.map_append, List.append_assoc]
          | some e =>
            simp only [ho]
            by_cases hcb : e.caught = true
            · simp only [if_pos hcb]
              obtain ⟨t2, hp2, hq2⟩ := ih
                (runDifficulties gen hasPM stem mdPath maxD totalP pageIdx ⟨pn, l1, mdPath⟩
                  (pyRange (if pageIdx = startP then startD else 1) (maxD + 1)) pairs qs).pairs
                (runDifficulties gen hasPM stem mdPath maxD totalP pageIdx ⟨pn, l1, mdPath⟩
                  (pyRange (if pageIdx = startP then startD else 1) (maxD + 1)) pairs qs).questions
              refine ⟨t1 ++ t2, ?_, ?_⟩
              · rw [hp2, hp1, List.append_assoc]
              · rw [hq2, hq1, List.map_append, List.append_assoc]
            · simp only [if_neg hcb]
              exact ⟨t1, hp1, hq1⟩

theorem runPages_calls (gen : GenCapability) (hasPM : Bool) (stem mdPath : PyStr)
    (maxD totalP startP startD : Nat) :
    ∀ (epages : List (Nat × PyStr)) (pairs : List QAPair) (qs : List PyStr) (u : Nat × Nat),
      u ∈ (runPages gen hasPM stem mdPath maxD totalP startP startD epages pairs qs).calls.map
            (fun c => c.1) →
      startP ≤ u.1 ∧ (u.1 = startP → startD ≤ u.2) ∧ (u.1 ≠ startP → 1 ≤ u.2) ∧ u.2 ≤ maxD := by
  intro epages
  induction epages with
  | nil => intro pairs qs u hu; simp [runPages] at hu
  | cons hd rest ih =>
    obtain ⟨pageIdx, pc⟩ := hd
    intro pairs qs u hu
    rcases hsp : splitFirstNL (pyStrip pc) with ⟨l0, ol1⟩
    cases ol1 with
    | none =>
      simp only [runPages, hsp] at hu
      exact ih _ _ u hu
    | some l1 =>
      by_cases hlt : pageIdx < startP
      · simp only [runPages, hsp, if_pos hlt] at hu
        exact ih _ _ u hu
      · cases hpn : parsePyInt l0 with
        | none =>
          simp only [runPages, hsp, if_neg hlt, hpn] at hu
          exact ih _ _ u hu
        | some pn =>
          simp only [runPages, hsp, if_neg hlt, hpn] at hu
          have hloc : ∀ (pairs0 : List QAPair) (qs0 : List PyStr),
              u ∈ (runDifficulties gen hasPM stem mdPath maxD totalP pageIdx ⟨pn, l1, mdPath⟩
                    (pyRange (if pageIdx = startP then startD else 1) (maxD + 1))
                    pairs0 qs0).callsNew.map (fun c => c.1) →
              startP ≤ u.1 ∧ (u.1 = startP → startD ≤ u.2) ∧ (u.1 ≠ startP → 1 ≤ u.2) ∧
                u.2 ≤ maxD := by
            intro pairs0 qs0 hu0
            obtain ⟨h1, h2, h3⟩ := callsNew_unit_bounds gen hasPM stem mdPath maxD totalP pageIdx
              ⟨pn, l1, mdPath⟩ (if pageIdx = startP then startD else 1) pairs0 qs0 u hu0
            refine ⟨by omega, fun he => ?_, fun hne => ?_, h3⟩
            · have hps : pageIdx = startP := by omega
              rw [if_pos hps] at h2
              exact h2
            · have hps : pageIdx ≠ startP := by omega
              rw [if_neg hps] at h2
              exact h2
          cases ho : (runDifficulties gen hasPM stem mdPath maxD totalP pageIdx ⟨pn, l1, mdPath⟩
              (pyRange (if pageIdx = startP then startD else 1) (maxD + 1)) pairs qs).outcome with
          | none =>
            simp only [ho, List.map_append, List.mem_append] at hu
            rcases hu with hu | hu
            · exact hloc _ _ hu
            · exact ih _ _ u hu
          | some e =>
            simp only [ho] at hu
            by_cases hcb : e.caught = true
            · simp only [if_pos hcb, List.map_append, List.mem_append] at hu
              rcases hu with hu | hu
              · exact hloc _ _ hu
              · exact ih _ _ u hu
            · simp only [if_neg hcb] at hu
              exact hloc _ _ hu

theorem runPages_saved (gen : GenCapability) (stem mdPath : PyStr)
    (maxD totalP startP startD : Nat) :
    ∀ (epages : List (Nat × PyStr)) (pairs : List QAPair) (qs : List PyStr),
      ((runPages gen true stem mdPath maxD totalP startP startD epages pairs qs).saved.map
          (fun pr => pr.1)
        = (runPages gen true stem mdPath maxD totalP startP startD epages pairs qs).calls.filterMap
            okUnit) ∧
      ∀ pr ∈ (runPages gen true stem mdPath maxD totalP startP startD epages pairs qs).saved,
        pr.2.current_page_idx = (nextCursor pr.1.1 pr.1.2 maxD).1 ∧
        pr.2.current_difficulty = (nextCursor pr.1.1 pr.1.2 maxD).2 := by
  intro epages
  induction epages with
  | nil =>
    intro pairs qs
    exact ⟨by simp [runPages], by simp [runPages]⟩
  | cons hd rest ih =>
    obtain ⟨pageIdx, pc⟩ := hd
    intro pairs qs
    rcases hsp : splitFirstNL (pyStrip pc) with ⟨l0, ol1⟩
    cases ol1 with
    | none =>
      simp only [runPages, hsp]
      exact ih pairs qs
    | some l1 =>
      by_cases hlt : pageIdx < startP
      · simp only [runPages, hsp, if_pos hlt]
        exact ih pairs qs
      · cases hpn : parsePyInt l0 with
        | none =>
          simp only [runPages, hsp, if_neg hlt, hpn]
          exact ih pairs qs
        | some pn =>
          simp only [runPages, hsp, if_neg hlt, hpn]
          obtain ⟨d1, d2⟩ := runDifficulties_saved gen stem mdPath maxD totalP pageIdx
            ⟨pn, l1, mdPath⟩
            (pyRange (if pageIdx = startP then startD else 1) (maxD + 1)) pairs qs
          cases ho : (runDifficulties gen true stem mdPath maxD totalP pageIdx ⟨pn, l1, mdPath⟩
              (pyRange (if pageIdx = startP then startD else 1) (maxD + 1)) pairs qs).outcome with
          | none =>
            simp only [ho]
            obtain ⟨i1, i2⟩ := ih
              (runDifficulties gen true stem mdPath maxD totalP pageIdx ⟨pn, l1, mdPath⟩
                (pyRange (if pageIdx = startP then startD else 1) (maxD + 1)) pairs qs).pairs
              (runDifficulties gen true stem mdPath maxD totalP pageIdx ⟨pn, l1, mdPath⟩
                (pyRange (if pageIdx = startP then startD else 1) (maxD + 1)) pairs qs).questions
            refine ⟨?_, ?_⟩
            · rw [List.map_append, List.filterMap_append, d1, i1]
            · intro pr hpr
              rcases List.mem_append.mp hpr with hpr | hpr
              · exact d2 pr hpr
              · exact i2 pr hpr
          | some e =>
            simp only [ho]
            by_cases hcb : e.caught = true
            · simp only [if_pos hcb]
              obtain ⟨i1, i2⟩ := ih
                (runDifficulties gen true stem mdPath maxD totalP pageIdx ⟨pn, l1, mdPath⟩
                  (pyRange (if pageIdx = startP then startD else 1) (maxD + 1)) pairs qs).pairs
                (runDifficulties gen true stem mdPath maxD totalP pageIdx ⟨pn, l1, mdPath⟩
                  (pyRange (if pageIdx = startP then startD else 1) (maxD + 1)) pairs qs).questions
              refine ⟨?_, ?_⟩
              · rw [List.map_append, List.filterMap_append, d1, i1]
              · intro pr hpr
                rcases List.mem_append.mp hpr with hpr | hpr
                · exact d2 pr hpr
                · exact i2 pr hpr
            · simp only [if_neg hcb]
              exact ⟨d1, d2⟩

theorem runPages_uncaught (gen : GenCapability) (hasPM : Bool) (stem mdPath : PyStr)
    (maxD totalP startP startD : Nat) :
    ∀ (epages : List (Nat × PyStr)) (pairs : List QAPair) (qs : List PyStr),
      ((runPages gen hasPM stem mdPath maxD totalP startP startD epages pairs qs).uncaught = none →
        ∀ c ∈ (runPages gen hasPM stem mdPath maxD totalP startP startD epages pairs qs).calls,
          ∀ e, c.2 = .error e → e.caught = true) ∧
      (∀ e, (runPages gen hasPM stem mdPath maxD totalP startP startD epages pairs qs).uncaught
            = some e →
        e.caught = false ∧
        ∃ pre u, (runPages gen hasPM stem mdPath maxD totalP startP startD epages pairs qs).calls
            = pre ++ [(u, .error e)]) := by
  intro epages
  induction epages with
  | nil =>
    intro pairs qs
    refine ⟨fun _ c hc => ?_, fun e he => ?_⟩
    · simp [runPages] at hc
    · simp [runPages] at he
  | cons hd rest ih =>
    obtain ⟨pageIdx, pc⟩ := hd
    intro pairs qs
    rcases hsp : splitFirstNL (pyStrip pc) with ⟨l0, ol1⟩
    cases ol1 with
    | none =>
      simp only [runPages, hsp]
      exact ih pairs qs
    | some l1 =>
      by_cases hlt : pageIdx < startP
      · simp only [runPages, hsp, if_pos hlt]
        exact ih pairs qs
      · cases hpn : parsePyInt l0 with
        | none =>
          simp only [runPages, hsp, if_neg hlt, hpn]
          exact ih pairs qs
        | some pn =>
          simp only [runPages, hsp, if_neg hlt, hpn]
          obtain ⟨rd1, rd2⟩ := runDifficulties_outcome gen hasPM stem mdPath maxD totalP pageIdx
            ⟨pn, l1, mdPath⟩
            (pyRange (if pageIdx = startP then startD else 1) (maxD + 1)) pairs qs
          cases ho : (runDifficulties gen hasPM stem mdPath maxD totalP pageIdx ⟨pn, l1, mdPath⟩
              (pyRange (if pageIdx = startP then startD else 1) (maxD + 1)) pairs qs).outcome with
          | none =>
            simp only [ho]
            obtain ⟨i1, i2⟩ := ih
              (runDifficulties gen hasPM stem mdPath maxD totalP pageIdx ⟨pn, l1, mdPath⟩
                (pyRange (if pageIdx = startP then startD else 1) (maxD + 1)) pairs qs).pairs
              (runDifficulties gen hasPM stem mdPath maxD totalP pageIdx ⟨pn, l1, mdPath⟩
                (pyRange (if pageIdx = startP then startD else 1) (maxD + 1)) pairs qs).questions
            refine ⟨fun h c hc e' hce => ?_, fun e' he' => ?_⟩
            · rcases List.mem_append.mp hc with hc | hc
              · obtain ⟨l, hl⟩ := rd1 ho c hc
                rw [hl] at hce
                exact Except.noConfusion hce
              · exact i1 h c hc e' hce
            · obtain ⟨hcf, pre, u, hcalls⟩ := i2 e' he'
              exact ⟨hcf, (runDifficulties gen hasPM stem mdPath maxD totalP pageIdx
                ⟨pn, l1, mdPath⟩ (pyRange (if pageIdx = startP then startD else 1) (maxD + 1))
                pairs qs).callsNew ++ pre, u, by rw [hcalls, List.append_assoc]⟩
          | some e0 =>
            simp only [ho]
            by_cases hcb : e0.caught = true
            · simp only [if_pos hcb]
              obtain ⟨pre0, u0, hc0, hok0⟩ := rd2 e0 ho
              obtain ⟨i1, i2⟩ := ih
                (runDifficulties gen hasPM stem mdPath maxD totalP pageIdx ⟨pn, l1, mdPath⟩
                  (pyRange (if pageIdx = startP then startD else 1) (maxD + 1)) pairs qs).pairs
                (runDifficulties gen hasPM stem mdPath maxD totalP pageIdx ⟨pn, l1, mdPath⟩
                  (pyRange (if pageIdx = startP then startD else 1) (maxD + 1)) pairs qs).questions
              refine ⟨fun h c hc e' hce => ?_, fun e' he' => ?_⟩
              · rcases List.mem_append.mp hc with hc | hc
                · rw [hc0] at hc
                  rcases List.mem_append.mp hc with hc | hc
                  · obtain ⟨l, hl⟩ := hok0 c hc
                    rw [hl] at hce
                    exact Except.noConfusion hce
                  · rw [List.mem_singleton.mp hc] at hce
                    have he0 : e' = e0 := by
                      have := hce
                      injection this with h2
                      exact h2.symm
                    rw [he0]
                    exact hcb
                · exact i1 h c hc e' hce
              · obtain ⟨hcf, pre, u, hcalls⟩ := i2 e' he'
                exact ⟨hcf, (runDifficulties gen hasPM stem mdPath maxD totalP pageIdx
                  ⟨pn, l1, mdPath⟩ (pyRange (if pageIdx = startP then startD else 1) (maxD + 1))
                  pairs qs).callsNew ++ pre, u, by rw [hcalls, List.append_assoc]⟩
            · simp only [if_neg hcb]
              refine ⟨fun h => ?_, fun e' he' => ?_⟩
              · exact absurd h (by simp)
              · have he0 : e' = e0 := by
                  have := he'
                  injection this with h2
                  exact h2.symm
                subst he0
                obtain ⟨pre0, u0, hc0, _⟩ := rd2 e' ho
                refine ⟨by simpa using hcb, pre0, u0, hc0⟩

theorem runDifficulties_calls_take (gen : GenCapability) (hasPM : Bool) (stem mdPath : PyStr)
    (maxD totalP pageIdx : Nat) (page : ProcessedPage) :
    ∀ (diffs : List Nat) (pairs : List QAPair) (qs : List PyStr), ∃ k,
      (runDifficulties gen hasPM stem mdPath maxD totalP pageIdx page diffs pairs qs).callsNew.map
          (fun c => c.1)
        = (diffs.take k).map (fun d0 => (pageIdx, d0)) := by
  intro diffs
  induction diffs with
  | nil => intro pairs qs; exact ⟨0, by simp [runDifficulties]⟩
  | cons d rest ih =>
    intro pairs qs
    cases hg : gen page.content d qs with
    | error e => exact ⟨1, by simp [runDifficulties, hg]⟩
    | ok qa_data =>
      obtain ⟨k, hk⟩ := ih (pairs ++ generate_from_page page d qa_data)
        (qs ++ (generate_from_page page d qa_data).map (fun qa => qa.question))
      exact ⟨k + 1, by simp [runDifficulties, hg, hk, List.take_succ_cons]⟩

theorem mem_take_pyRange (x s b k : Nat) :
    x ∈ (pyRange s b).take k ↔ s ≤ x ∧ x < b ∧ x < s + k := by
  rw [pyRange, ← List.map_take, List.take_range]
  simp only [List.mem_map, List.mem_range]
  constructor
  · rintro ⟨i, hi, rfl⟩
    omega
  · rintro ⟨h1, h2, h3⟩
    exact ⟨x - s, by omega, by omega⟩

theorem runDifficulties_calls_contiguous (gen : GenCapability) (hasPM : Bool)
    (stem mdPath : PyStr) (maxD totalP pageIdx : Nat) (page : ProcessedPage) (s : Nat)
    (pairs : List QAPair) (qs : List PyStr) (u : Nat × Nat) (e : Nat)
    (hu : u ∈ (runDifficulties gen hasPM stem mdPath maxD totalP pageIdx page
            (pyRange s (maxD + 1)) pairs qs).callsNew.map (fun c => c.1))
    (hse : s ≤ e) (helt : e < u.2) :
    (u.1, e) ∈ (runDifficulties gen hasPM stem mdPath maxD totalP pageIdx page
            (pyRange s (maxD + 1)) pairs qs).callsNew.map (fun c => c.1) := by
  obtain ⟨k, hk⟩ := runDifficulties_calls_take gen hasPM stem mdPath maxD totalP pageIdx page
    (pyRange s (maxD + 1)) pairs qs
  rw [hk] at hu ⊢
  rcases List.mem_map.mp hu with ⟨d0, hd0, rfl⟩
  obtain ⟨hb1, hb2, hb3⟩ := (mem_take_pyRange d0 s (maxD + 1) k).mp hd0
  exact List.mem_map_of_mem _ ((mem_take_pyRange e s (maxD + 1) k).mpr ⟨hse, by omega, by omega⟩)

theorem runPages_calls_contiguous (gen : GenCapability) (hasPM : Bool) (stem mdPath : PyStr)
    (maxD totalP startP startD : Nat) :
    ∀ (epages : List (Nat × PyStr)) (pairs : List QAPair) (qs : List PyStr) (u : Nat × Nat)
      (e : Nat),
      u ∈ (runPages gen hasPM stem mdPath maxD totalP startP startD epages pairs qs).calls.map
            (fun c => c.1) →
      (if u.1 = startP then startD else 1) ≤ e → e < u.2 →
      (u.1, e) ∈ (runPages gen hasPM stem mdPath maxD totalP startP startD epages pairs qs).calls.map
            (fun c => c.1) := by
  intro epages
  induction epages with
  | nil => intro pairs qs u e hu; simp [runPages] at hu
  | cons hd rest ih =>
    obtain ⟨pageIdx, pc⟩ := hd
    intro pairs qs u e hu hse helt
    rcases hsp : splitFirstNL (pyStrip pc) with ⟨l0, ol1⟩
    cases ol1 with
    | none =>
      simp only [runPages, hsp] at hu ⊢
      exact ih _ _ u e hu hse helt
    | some l1 =>
      by_cases hlt : pageIdx < startP
      · simp only [runPages, hsp, if_pos hlt] at hu ⊢
        exact ih _ _ u e hu hse helt
      · cases hpn : parsePyInt l0 with
        | none =>
          simp only [runPages, hsp, if_neg hlt, hpn] at hu ⊢
          exact ih _ _ u e hu hse helt
        | some pn =>
          simp only [runPages, hsp, if_neg hlt, hpn] at hu ⊢
          have hloc : ∀ (pairs0 : List QAPair) (qs0 : List PyStr),
              u ∈ (runDifficulties gen hasPM stem mdPath maxD totalP pageIdx ⟨pn, l1, mdPath⟩
                    (pyRange (if pageIdx = startP then startD else 1) (maxD + 1))
                    pairs0 qs0).callsNew.map (fun c => c.1) →
              (u.1, e) ∈ (runDifficulties gen hasPM stem mdPath maxD totalP pageIdx
                    ⟨pn, l1, mdPath⟩
                    (pyRange (if pageIdx = startP then startD else 1) (maxD + 1))
                    pairs0 qs0).callsNew.map (fun c => c.1) := by
            intro pairs0 qs0 hu0
            obtain ⟨h1, _, _⟩ := callsNew_unit_bounds gen hasPM stem mdPath maxD totalP pageIdx
              ⟨pn, l1, mdPath⟩ (if pageIdx = startP then startD else 1) pairs0 qs0 u hu0
            refine runDifficulties_calls_contiguous gen hasPM stem mdPath maxD totalP pageIdx
              ⟨pn, l1, mdPath⟩ _ pairs0 qs0 u e hu0 ?_ helt
            rw [← h1]
            exact hse
          cases ho : (runDifficulties gen hasPM stem mdPath maxD totalP pageIdx ⟨pn, l1, mdPath⟩
              (pyRange (if pageIdx = startP then startD else 1) (maxD + 1)) pairs qs).outcome with
          | none =>
            simp only [ho, List.map_append, List.mem_append] at hu ⊢
            rcases hu with hu | hu
            · exact Or.inl (hloc _ _ hu)
            · exact Or.inr (ih _ _ u e hu hse helt)
          | some e0 =>
            simp only [ho] at hu ⊢
            by_cases hcb : e0.caught = true
            · simp only [if_pos hcb, List.map_append, List.mem_append] at hu ⊢
              rcases hu with hu | hu
              · exact Or.inl (hloc _ _ hu)
              · exact Or.inr (ih _ _ u e hu hse helt)
            · simp only [if_neg hcb] at hu ⊢
              exact hloc _ _ hu

/-- Claim C1: resume produces no duplicate work — running the engine with a
resume state (cursor page p, difficulty d, accumulator A) invokes the
capability only for units at pages not before p, starting at difficulty d
on page p and at difficulty 1 on every later page (never above the run's
maximum), so no (page, difficulty) unit lexicographically before (p, d) is
re-invoked; and the accumulated result carries A as an exact prefix. -/
theorem resume_produces_no_duplicate_work (gen : GenCapability) (pages : List PyStr)
    (mdPath stem : PyStr) (maxD : Nat) (hasPM : Bool) (rs : QAGenerationState) :
    (∀ u ∈ invokedUnits (generate_from_markdown gen pages mdPath stem maxD hasPM (some rs)),
       rs.current_page_idx ≤ u.1 ∧
       (u.1 = rs.current_page_idx → rs.current_difficulty ≤ u.2) ∧
       (u.1 ≠ rs.current_page_idx → 1 ≤ u.2) ∧ u.2 ≤ maxD) ∧
    (∀ u ∈ invokedUnits (generate_from_markdown gen pages mdPath stem maxD hasPM (some rs)),
       ∀ e, (if u.1 = rs.current_page_idx then rs.current_difficulty else 1) ≤ e → e < u.2 →
         (u.1, e) ∈ invokedUnits (generate_from_markdown gen pages mdPath stem maxD hasPM
           (some rs))) ∧
    (∃ t, (generate_from_markdown gen pages mdPath stem maxD hasPM (some rs)).pairs
        = rs.generated_qa_pairs ++ t) := by
  refine ⟨?_, ?_, ?_⟩
  · intro u hu
    exact runPages_calls gen hasPM stem mdPath maxD (pages.length - 1)
      rs.current_page_idx rs.current_difficulty (enumFrom 1 (pages.drop 1))
      rs.generated_qa_pairs rs.existing_questions u hu
  · intro u hu e hse helt
    exact runPages_calls_contiguous gen hasPM stem mdPath maxD (pages.length - 1)
      rs.current_page_idx rs.current_difficulty (enumFrom 1 (pages.drop 1))
      rs.generated_qa_pairs rs.existing_questions u e hu hse helt
  · obtain ⟨t, h1, _⟩ := runPages_extend gen hasPM stem mdPath maxD (pages.length - 1)
      rs.current_page_idx rs.current_difficulty (enumFrom 1 (pages.drop 1))
      rs.generated_qa_pairs rs.existing_questions
    exact ⟨t, h1⟩

/-- Witness: in the run resumed at page 1, difficulty 1 over the two-page
document, unit (2, 2) is invoked within bounds, difficulty 1 on page 2 was
also invoked (the page started at 1), and the result extends the resume
accumulator. -/
theorem resume_produces_no_duplicate_work_witness :
    ((2, 2) ∈ invokedUnits traceC1b) ∧
    ((if (2 : Nat) = resumeFreshC1.current_page_idx then resumeFreshC1.current_difficulty
        else 1) ≤ 1 ∧ 1 < 2) ∧
    (resumeFreshC1.current_page_idx ≤ 2 ∧
     (2 = resumeFreshC1.current_page_idx → resumeFreshC1.current_difficulty ≤ 2) ∧
     (2 ≠ resumeFreshC1.current_page_idx → 1 ≤ 2) ∧ 2 ≤ 2) ∧
    (((2 : Nat), (1 : Nat)) ∈ invokedUnits traceC1b) ∧
    (∃ t, traceC1b.pairs = resumeFreshC1.generated_qa_pairs ++ t) := by
  refine ⟨by decide, ⟨by decide, by decide⟩, ?_, ?_, ?_⟩
  · exact (resume_produces_no_duplicate_work genOneCandidate demoPages [] [] 2 true
      resumeFreshC1).1 (2, 2) (by decide)
  · exact (resume_produces_no_duplicate_work genOneCandidate demoPages [] [] 2 true
      resumeFreshC1).2.1 (2, 2) (by decide) 1 (by decide) (by decide)
  · exact (resume_produces_no_duplicate_work genOneCandidate demoPages [] [] 2 true
      resumeFreshC1).2.2

/-- Claim C2: with a checkpoint sink present, a checkpoint is saved after
exactly the completed units, and its stored cursor is the next position:
(same page, difficulty + 1) when the completed difficulty is below the
run's maximum, else (page + 1, 1) — in particular after completing the
maximum difficulty on a page the cursor is the next page at difficulty 1,
never (page, maximum + 1). -/
theorem checkpoint_cursor_rollover (gen : GenCapability) (pages : List PyStr)
    (mdPath stem : PyStr) (maxD : Nat) (resume : Option QAGenerationState) :
    (∀ pr ∈ (generate_from_markdown gen pages mdPath stem maxD true resume).saved,
       (pr.1.2 < maxD → pr.2.current_page_idx = pr.1.1 ∧
          pr.2.current_difficulty = pr.1.2 + 1) ∧
       (maxD ≤ pr.1.2 → pr.2.current_page_idx = pr.1.1 + 1 ∧
          pr.2.current_difficulty = 1)) ∧
    (generate_from_markdown gen pages mdPath stem maxD true resume).saved.map (fun pr => pr.1)
      = (generate_from_markdown gen pages mdPath stem maxD true resume).calls.filterMap okUnit := by
  obtain ⟨h1, h2⟩ := runPages_saved gen stem mdPath maxD (pages.length - 1)
    (startPageIdx resume) (startDifficulty resume) (enumFrom 1 (pages.drop 1))
    (initialPairs resume) (initialQuestions resume)
  refine ⟨?_, h1⟩
  intro pr hpr
  obtain ⟨hc1, hc2⟩ := h2 pr hpr
  constructor
  · intro hlt
    constructor
    · rw [hc1]
      unfold nextCursor
      rw [if_pos hlt]
    · rw [hc2]
      unfold nextCursor
      rw [if_pos hlt]
  · intro hge
    have hnlt : ¬ pr.1.2 < maxD := by omega
    constructor
    · rw [hc1]
      unfold nextCursor
      rw [if_neg hnlt]
    · rw [hc2]
      unfold nextCursor
      rw [if_neg hnlt]

/-- Witness: in the fresh one-page run with maximum difficulty 2, the
checkpoint saved after unit (1, 2) has cursor (2, 1), and the saved units
are exactly the completed calls. -/
theorem checkpoint_cursor_rollover_witness :
    (savedPairC2 ∈ traceC2.saved) ∧
    (2 ≤ savedPairC2.1.2 → savedPairC2.2.current_page_idx = savedPairC2.1.1 + 1 ∧
      savedPairC2.2.current_difficulty = 1) ∧
    traceC2.saved.map (fun pr => pr.1) = traceC2.calls.filterMap okUnit := by
  refine ⟨by decide, ?_, ?_⟩
  · exact ((checkpoint_cursor_rollover genOneCandidate [[], pageSeg1] [] [] 2 none).1
      savedPairC2 (by decide)).2
  · exact (checkpoint_cursor_rollover genOneCandidate [[], pageSeg1] [] [] 2 none).2

/-- Counterexample to claim C3 as stated: with a capability raising
ValueError at every unit, the exception at unit (1, 1) does not abort the
run and does not propagate — the engine swallows it, continues with page 2,
invokes unit (2, 1), and returns normally with no uncaught exception. -/
theorem caught_capability_exception_continues :
    traceC3.calls = [((1, 1), .error .valueError), ((2, 1), .error .valueError)] ∧
    traceC3.uncaught = none ∧ traceC3.pairs = [] := by
  exact ⟨by decide, by decide, by decide⟩

/-- Claim C3 (amended): a capability exception aborts the run only when it
is not a ValueError or IndexError — an aborting exception is always of
class other and the aborting call is the last one made (so nothing later is
processed, and the engine never removes saved checkpoints); on a normally
returning run every capability exception, if any, was a caught
ValueError/IndexError after which the engine skipped the rest of that page
and continued. -/
theorem capability_exception_aborts_only_uncatchable (gen : GenCapability) (pages : List PyStr)
    (mdPath stem : PyStr) (maxD : Nat) (hasPM : Bool) (resume : Option QAGenerationState) :
    (∀ e, (generate_from_markdown gen pages mdPath stem maxD hasPM resume).uncaught = some e →
       e = PyExnClass.other ∧
       ∃ pre u, (generate_from_markdown gen pages mdPath stem maxD hasPM resume).calls
           = pre ++ [(u, .error e)]) ∧
    ((generate_from_markdown gen pages mdPath stem maxD hasPM resume).uncaught = none →
       ∀ c ∈ (generate_from_markdown gen pages mdPath stem maxD hasPM resume).calls,
         ∀ e, c.2 = .error e → e.caught = true) := by
  obtain ⟨h1, h2⟩ := runPages_uncaught gen hasPM stem mdPath maxD (pages.length - 1)
    (startPageIdx resume) (startDifficulty resume) (enumFrom 1 (pages.drop 1))
    (initialPairs resume) (initialQuestions resume)
  refine ⟨fun e he => ?_, h1⟩
  obtain ⟨hcf, pre, u, hcalls⟩ := h2 e he
  refine ⟨?_, pre, u, hcalls⟩
  cases e with
  | valueError => exact absurd hcf (by decide)
  | indexError => exact absurd hcf (by decide)
  | other => rfl

/-- Witness: the run whose capability raises a non-ValueError exception at
unit (1, 1) aborts with that exception, and the aborting call is the last
one made. -/
theorem capability_exception_aborts_only_uncatchable_witness :
    (traceC3b.uncaught = some PyExnClass.other) ∧
    (PyExnClass.other = PyExnClass.other ∧
     ∃ pre u, traceC3b.calls = pre ++ [(u, .error PyExnClass.other)]) := by
  exact ⟨by decide,
    (capability_exception_aborts_only_uncatchable genOtherError [[], pageSeg1] [] [] 1 true
      none).1 PyExnClass.other (by decide)⟩

/-- Counterexample to claim C4 as stated: in a run whose capability returns
one accepted pair with question Q, the engine adds the raw question Q to
the seen-question collection; Q is not the trimmed lowercase of any
accepted pair's question (that would be q). -/
theorem seen_questions_not_normalised :
    traceC4.questions = [['Q']] ∧
    traceC4.pairs.map (fun qa => pyNormalize qa.question) = [['q']] ∧
    ¬ (∀ q ∈ traceC4.questions, ∃ qa ∈ traceC4.pairs, q = pyNormalize qa.question) := by
  exact ⟨by decide, by decide, by decide⟩

/-- Claim C4 (amended): the questions added to the seen-question collection
during generation are the accepted pairs' questions verbatim, not trimmed
or case-folded: after any run the question list equals the initial list
extended by exactly the questions of the newly accumulated pairs, in
order. -/
theorem seen_questions_extended_verbatim (gen : GenCapability) (pages : List PyStr)
    (mdPath stem : PyStr) (maxD : Nat) (hasPM : Bool) (resume : Option QAGenerationState) :
    ∃ t, (generate_from_markdown gen pages mdPath stem maxD hasPM resume).pairs
          = initialPairs resume ++ t ∧
      (generate_from_markdown gen pages mdPath stem maxD hasPM resume).questions
          = initialQuestions resume ++ t.map (fun qa => qa.question) := by
  exact runPages_extend gen hasPM stem mdPath maxD (pages.length - 1)
    (startPageIdx resume) (startDifficulty resume) (enumFrom 1 (pages.drop 1))
    (initialPairs resume) (initialQuestions resume)

/-- Claim C8: for a single document, when generation raises no uncaught
exception and the output write succeeds, the checkpoint ends deleted (even
when the run resumed from one) and the count is the size of the
deduplicated result; on a generation or persistence failure the count is
zero and the checkpoint on disk is exactly what the run left — the last
engine save, or the pre-existing checkpoint when nothing was saved — with
no deletion; and a batch sums independent per-document results, so one
document's failure leaves the others unchanged. -/
theorem orchestrator_checkpoint_lifecycle (gen : GenCapability) (maxD : Nat)
    (force_restart : Bool) (job : FileJob) :
    (((engineTraceOf gen maxD force_restart job).uncaught = none ∧ job.persistOk = true) →
       process_single_file gen maxD force_restart job
         = ⟨(deduplicate_qa_pairs (engineTraceOf gen maxD force_restart job).pairs).length,
            none⟩) ∧
    (((engineTraceOf gen maxD force_restart job).uncaught ≠ none ∨ job.persistOk = false) →
       process_single_file gen maxD force_restart job
         = ⟨0, ckptAfterRun gen maxD force_restart job⟩) ∧
    (∀ pre post, process_files gen maxD force_restart (pre ++ job :: post)
       = process_files gen maxD force_restart pre
         + (process_single_file gen maxD force_restart job).count
         + process_files gen maxD force_restart post) := by
  refine ⟨?_, ?_, ?_⟩
  · rintro ⟨h1, h2⟩
    simp [process_single_file, h1, h2]
  · rintro (h1 | h2)
    · obtain ⟨e, he⟩ := Option.ne_none_iff_exists'.mp h1
      simp [process_single_file, he]
    · cases hu : (engineTraceOf gen maxD force_restart job).uncaught with
      | some e => simp [process_single_file, hu]
      | none => simp [process_single_file, hu, h2]
  · intro pre post
    simp only [process_files, List.map_append, List.sum_append, List.map_cons, List.sum_cons]
    omega

/-- Witness: the resumed job that succeeds end to end returns the
deduplicated count and leaves no checkpoint. -/
theorem orchestrator_checkpoint_lifecycle_witness :
    ((engineTraceOf genOneCandidate 1 false jobC8).uncaught = none ∧ jobC8.persistOk = true) ∧
    process_single_file genOneCandidate 1 false jobC8
      = ⟨(deduplicate_qa_pairs (engineTraceOf genOneCandidate 1 false jobC8).pairs).length,
         none⟩ := by
  exact ⟨⟨by decide, by decide⟩,
    (orchestrator_checkpoint_lifecycle genOneCandidate 1 false jobC8).1 ⟨by decide, by decide⟩⟩
